import Mathlib

/-!
Verification of the timing core of `gr-timing_utils`' `interrupt_emitter`
block (header: `include/timing_utils/interrupt_emitter.h`).

The repository ships the public header only; the behavior of the block is
specified in `spec.md` (time-base tracker, drift control loop, trigger
queue and matcher).  The definitions below embed that behavior shallowly:
real-valued times and rates are modelled by `ℚ` (exact arithmetic), sample
indices by `ℕ`/`ℤ`, and the per-block processing as a pure function from
state to state plus emitted events.
-/

namespace TimingUtils

/-- A trigger request target, in one of the three accepted submission
forms: a raw sample index, an absolute true-time value, or a
(seconds, fractional-seconds) pair. -/
inductive Target where
  | sample : ℕ → Target
  | time : ℚ → Target
  | pair : ℤ → ℚ → Target
deriving DecidableEq, Repr

/-- A pending trigger request as held in the queue: an identity tag
(modelling object identity of the request), the resolved target true
time (`key`, the queue ordering key), and the original request form kept
verbatim for echo-back in the emitted event. -/
structure Entry where
  id : ℕ
  key : ℚ
  form : Target
deriving DecidableEq, Repr

/-- An emitted event record: the original request form, the sample index
at which the trigger matured, and the realized lateness in seconds.
The `id` field carries the identity of the originating request. -/
structure EmittedEvent where
  id : ℕ
  trigger_time : Target
  trigger_sample : ℕ
  late_delta : ℚ
deriving DecidableEq, Repr

/-- Modelled from the spec: the internal state of the interrupt emitter
(the implementation `.cc` file is not part of the shipped sources; the
state follows spec.md section 3 DATA MODEL).  `anchor` is the
authoritative (sample_index, true_time) pair, `anchored` records whether
a first true-time marker has been observed, `drift` is the DriftState
(a rate-multiplier correction, neutral value 1), and `expected` is the
next sample index that would extend the stream contiguously. -/
structure State where
  rate : ℚ
  drift : ℚ
  loop_gain : ℚ
  drop_if_late : Bool
  anchored : Bool
  anchor : ℕ × ℚ
  expected : ℕ
  pending : List Entry
deriving DecidableEq, Repr

/-- Modelled from the spec: `sample_to_time` of the Time-Base Tracker.
`anchor.true_time + (sample_index - anchor.sample_index) / (rate * drift_factor)`
(spec.md section 4.1). -/
def sample_to_time (a : ℕ × ℚ) (r d : ℚ) (s : ℚ) : ℚ :=
  a.2 + (s - (a.1 : ℚ)) / (r * d)

/-- Modelled from the spec: `time_to_sample` of the Time-Base Tracker,
the inverse conversion of `sample_to_time` (spec.md section 4.1). -/
def time_to_sample (a : ℕ × ℚ) (r d : ℚ) (t : ℚ) : ℚ :=
  (a.1 : ℚ) + (t - a.2) * (r * d)

/-- Modelled from the spec: the Drift Control Loop's single-pole
exponential update `drift_state + loop_gain * error` (spec.md section 4.2). -/
def update (d g e : ℚ) : ℚ := d + g * e

/-- Modelled from the spec: `observe_anchor` of the Time-Base Tracker
(spec.md section 4.1).  On a contiguous observation with a prior anchor,
the prediction error feeds the Drift Control Loop and the anchor is
replaced; on the first marker or on a discontinuity the new anchor is
adopted unconditionally with the drift state left unchanged. -/
def observe_anchor (st : State) (s : ℕ) (t : ℚ) : State :=
  if st.anchored = true ∧ s = st.expected then
    { st with
      anchor := (s, t)
      drift := update st.drift st.loop_gain
        (t - sample_to_time st.anchor st.rate st.drift (s : ℚ)) }
  else
    { st with anchor := (s, t), anchored := true }

/-- The sample index resolved for a pending request's target time under
the current time base: the first sample boundary at or after the
requested instant (an event cannot be raised before a sample boundary
exists for it, spec.md section 4.3). -/
def resolveSample (st : State) (key : ℚ) : ℤ :=
  Int.ceil (time_to_sample st.anchor st.rate st.drift key)

/-- The last sample index covered by a block starting at `b0` with `n`
samples. -/
def blockUpper (b0 n : ℕ) : ℤ := (b0 : ℤ) + (n : ℤ) - 1

/-- A pending request matures in a block when its resolved target sample
falls at or before the block's upper bound (spec.md section 4.3). -/
def matured (st : State) (b0 n : ℕ) (e : Entry) : Bool :=
  decide (resolveSample st e.key ≤ blockUpper b0 n)

/-- A matured request is late when its resolved target sample lies
strictly before the block's covered range (spec.md section 4.3). -/
def isLate (st : State) (b0 : ℕ) (e : Entry) : Bool :=
  decide (resolveSample st e.key < (b0 : ℤ))

/-- The event emitted for a matured request: `trigger_sample` is the
resolved sample clamped to the block start (a late request can only be
raised at the current block), and `late_delta` is the actual time at the
trigger sample minus the requested true time (spec.md section 4.3). -/
def emitEvent (st : State) (b0 : ℕ) (e : Entry) : EmittedEvent :=
  let ts : ℕ := (max (resolveSample st e.key) (b0 : ℤ)).toNat
  { id := e.id
    trigger_time := e.form
    trigger_sample := ts
    late_delta := sample_to_time st.anchor st.rate st.drift (ts : ℚ) - e.key }

/-- Modelled from the spec: the Trigger Matcher's per-block pass
(spec.md section 4.3; the implementation `.cc` file is not part of the
shipped sources).  Every pending request maturing in the block reaches a
terminal state: dropped without emission when it is late and
`drop_if_late` is set, emitted otherwise; requests beyond the block's
range remain pending untouched. -/
def processBlock (st : State) (b0 n : ℕ) : List EmittedEvent × State :=
  let mat := st.pending.filter (matured st b0 n)
  let rem := st.pending.filter (fun e => !(matured st b0 n e))
  let evs := (mat.filter (fun e => !(st.drop_if_late && isLate st b0 e))).map
    (emitEvent st b0)
  (evs, { st with pending := rem, expected := b0 + n })

/-- The requests dropped (terminal, no emission) by a block pass. -/
def droppedOf (st : State) (b0 n : ℕ) : List Entry :=
  (st.pending.filter (matured st b0 n)).filter
    (fun e => st.drop_if_late && isLate st b0 e)

/-- Insertion of a new request respecting the queue's target-time
ordering (spec.md section 4.3, Insertion). -/
def insertSorted (e : Entry) : List Entry → List Entry
  | [] => [e]
  | x :: xs => if e.key ≤ x.key then e :: x :: xs else x :: insertSorted e xs

/-- Enqueue a trigger request submitted through the asynchronous message
channel. -/
def insertRequest (st : State) (e : Entry) : State :=
  { st with pending := insertSorted e st.pending }

/-- Default loop gain of the factory function (`loop_gain = .0001` in the
header's `make` declaration). -/
def defaultLoopGain : ℚ := 1 / 10000

/-- The freshly constructed instance state: neutral drift, no anchor
observed yet, empty queue. -/
def initState (rate : ℚ) (drop : Bool) (g : ℚ) : State :=
  { rate := rate
    drift := 1
    loop_gain := g
    drop_if_late := drop
    anchored := false
    anchor := (0, 0)
    expected := 0
    pending := [] }

/-- Modelled from the spec: construction fails fatally (no instance
state) when `rate ≤ 0`, and otherwise produces a fresh instance
(spec.md section 7; the factory body is not part of the shipped
sources). -/
def make (rate : ℚ) (drop : Bool) (g : ℚ) : Option State :=
  if rate ≤ 0 then none else some (initState rate drop g)

/-- Construction with the default loop gain of the header declaration. -/
def makeDefault (rate : ℚ) (drop : Bool) : Option State :=
  make rate drop defaultLoopGain

/-- A run of successive block-processing invocations: the concatenated
emitted event stream. -/
def run (st : State) : List (ℕ × ℕ) → List EmittedEvent
  | [] => []
  | b :: bs => (processBlock st b.1 b.2).1 ++ run (processBlock st b.1 b.2).2 bs

/-- The identities of the requests reaching a terminal state
(emitted or dropped) across a run of block-processing invocations. -/
def runTerm (st : State) : List (ℕ × ℕ) → List ℕ
  | [] => []
  | b :: bs =>
    ((st.pending.filter (matured st b.1 b.2)).map Entry.id) ++
      runTerm (processBlock st b.1 b.2).2 bs

/-- The five payload element types the public interface is instantiated
for (the header's typedefs `interrupt_emitter_b/s/i/f/c` for
unsigned char, short, int32_t, float, gr_complex). -/
inductive PayloadType where
  | b : PayloadType
  | s : PayloadType
  | i : PayloadType
  | f : PayloadType
  | c : PayloadType
deriving DecidableEq, Repr, Fintype

/-- The list of payload instantiations declared by the header. -/
def payloadTypes : List PayloadType := [.b, .s, .i, .f, .c]

/-- An input to the block, carrying payload samples of element type `α`
alongside the timing metadata: a processed block, an in-band true-time
marker, or an asynchronous trigger request. -/
inductive Input (α : Type) where
  | block : List α → ℕ → ℕ → Input α
  | marker : ℕ → ℚ → Input α
  | request : Entry → Input α

/-- One step of the payload-parametric block: the payload samples play no
role in the timing logic (spec.md section 6, Data passthrough). -/
def stepP {α : Type} (st : State) : Input α → List EmittedEvent × State
  | .block _ b0 n => processBlock st b0 n
  | .marker s t => ([], observe_anchor st s t)
  | .request e => ([], insertRequest st e)

/-- A run of the payload-parametric block over a sequence of inputs. -/
def runP {α : Type} (st : State) : List (Input α) → List EmittedEvent
  | [] => []
  | i :: is => (stepP st i).1 ++ runP (stepP st i).2 is

/-- Two inputs over different payload element types carrying the same
timing metadata (block position and length, marker, or request). -/
def sameMeta {α β : Type} : Input α → Input β → Prop
  | .block _ b0 n, .block _ b0' n' => b0 = b0' ∧ n = n'
  | .marker s t, .marker s' t' => s = s' ∧ t = t'
  | .request e, .request e' => e = e'
  | _, _ => False

/-- Monotone drift sequence of the synthetic constant-drift scenario:
starting from estimate `x0`, each anchor observation feeds the residual
error `d - x` to the Drift Control Loop. -/
def driftSeq (d g x0 : ℚ) : ℕ → ℚ
  | 0 => x0
  | n + 1 => update (driftSeq d g x0 n) g (d - driftSeq d g x0 n)

/-- A sample concrete request targeting true time 2 (identity 0). -/
def wE0 : Entry := { id := 0, key := 2, form := Target.time 2 }

/-- A sample concrete request targeting sample 6 (identity 1). -/
def wE1 : Entry := { id := 1, key := 6, form := Target.sample 6 }

/-- A sample concrete state: unit rate, neutral drift, anchored at
(sample 0, time 0), two pending requests, `drop_if_late` unset. -/
def wSt : State :=
  { rate := 1
    drift := 1
    loop_gain := 1 / 10000
    drop_if_late := false
    anchored := true
    anchor := (0, 0)
    expected := 0
    pending := [wE0, wE1] }

/-- The sample concrete state with `drop_if_late` set. -/
def wStDrop : State :=
  { rate := 1
    drift := 1
    loop_gain := 1 / 10000
    drop_if_late := true
    anchored := true
    anchor := (0, 0)
    expected := 0
    pending := [wE0, wE1] }

lemma sample_to_time_time_to_sample (a : ℕ × ℚ) (r d t : ℚ) (h : r * d ≠ 0) :
    sample_to_time a r d (time_to_sample a r d t) = t := by
  unfold sample_to_time time_to_sample
  field_simp

lemma time_to_sample_sample_to_time (a : ℕ × ℚ) (r d s : ℚ) (h : r * d ≠ 0) :
    time_to_sample a r d (sample_to_time a r d s) = s := by
  unfold sample_to_time time_to_sample
  field_simp
  ring

lemma sample_to_time_mono (a : ℕ × ℚ) (r d : ℚ) (h : 0 < r * d) {x y : ℚ}
    (hxy : x ≤ y) : sample_to_time a r d x ≤ sample_to_time a r d y := by
  unfold sample_to_time
  have hdiv : (x - (a.1 : ℚ)) / (r * d) ≤ (y - (a.1 : ℚ)) / (r * d) :=
    div_le_div_of_nonneg_right (by linarith) h.le
  linarith

lemma sample_to_time_strictMono (a : ℕ × ℚ) (r d : ℚ) (h : 0 < r * d) {x y : ℚ}
    (hxy : x < y) : sample_to_time a r d x < sample_to_time a r d y := by
  unfold sample_to_time
  have hdiv : (x - (a.1 : ℚ)) / (r * d) < (y - (a.1 : ℚ)) / (r * d) :=
    div_lt_div_of_pos_right (by linarith) h
  linarith

lemma driftSeq_geo (d g x0 : ℚ) : ∀ n : ℕ,
    d - driftSeq d g x0 n = (1 - g) ^ n * (d - x0) := by
  intro n
  induction n with
  | zero => simp [driftSeq]
  | succ n ih =>
    have hstep : d - driftSeq d g x0 (n + 1) = (1 - g) * (d - driftSeq d g x0 n) := by
      simp only [driftSeq, update]
      ring
    rw [hstep, ih, pow_succ]
    ring

/-- C1: for every anchor, rate and drift factor, `sample_to_time` is the
spec's affine conversion and `time_to_sample` inverts it exactly on every
sample index. -/
theorem c1_timebase_inverse (a : ℕ × ℚ) (r d s : ℚ) (h : r * d ≠ 0) :
    sample_to_time a r d s = a.2 + (s - (a.1 : ℚ)) / (r * d) ∧
    time_to_sample a r d (sample_to_time a r d s) = s :=
  ⟨rfl, time_to_sample_sample_to_time a r d s h⟩

theorem c1_witness :
    (1 : ℚ) * 1 ≠ 0 ∧
    (sample_to_time (2, 3) 1 1 5 = 3 + ((5 : ℚ) - (2 : ℕ)) / (1 * 1) ∧
      time_to_sample (2, 3) 1 1 (sample_to_time (2, 3) 1 1 5) = 5) :=
  ⟨by norm_num, c1_timebase_inverse (2, 3) 1 1 5 (by norm_num)⟩

/-- C2: a single drift-loop update produces exactly
`drift_state + loop_gain * error`, and an anchor observation either
leaves the drift state unchanged or changes it by exactly one such
update with error = observed minus predicted true time. -/
theorem c2_drift_update :
    (∀ d g e : ℚ, update d g e = d + g * e) ∧
    ∀ (st : State) (s : ℕ) (t : ℚ),
      (observe_anchor st s t).drift = st.drift ∨
      (observe_anchor st s t).drift =
        update st.drift st.loop_gain
          (t - sample_to_time st.anchor st.rate st.drift (s : ℚ)) := by
  refine ⟨fun d g e => rfl, fun st s t => ?_⟩
  unfold observe_anchor
  split
  · exact Or.inr rfl
  · exact Or.inl rfl

/-- C7: an anchor observation whose sample index is not contiguous with
the last seen index still adopts the new (sample_index, true_time) pair
as the authoritative anchor, and leaves the drift state unchanged. -/
theorem c7_discontinuity (st : State) (s : ℕ) (t : ℚ) (h : s ≠ st.expected) :
    (observe_anchor st s t).anchor = (s, t) ∧
    (observe_anchor st s t).drift = st.drift := by
  unfold observe_anchor
  rw [if_neg (fun hc => h hc.2)]
  exact ⟨rfl, rfl⟩

theorem c7_witness :
    (5 : ℕ) ≠ (initState 1 false (1 / 10000)).expected ∧
    (observe_anchor (initState 1 false (1 / 10000)) 5 7).anchor = (5, 7) ∧
    (observe_anchor (initState 1 false (1 / 10000)) 5 7).drift =
      (initState 1 false (1 / 10000)).drift :=
  ⟨by decide, c7_discontinuity (initState 1 false (1 / 10000)) 5 7 (by decide)⟩

/-- C8: under a synthetic constant drift `d` and gain `g` in (0, 1), the
residual error contracts by the ratio (1 - g) at each observation, equals
`(1 - g)^n` times the initial error, and the drift estimate stays within
the initial error bound (never diverges). -/
theorem c8_drift_convergence (d g x0 : ℚ) (n : ℕ) (h1 : 0 < g) (h2 : g < 1) :
    d - driftSeq d g x0 (n + 1) = (1 - g) * (d - driftSeq d g x0 n) ∧
    d - driftSeq d g x0 n = (1 - g) ^ n * (d - x0) ∧
    |d - driftSeq d g x0 n| ≤ |d - x0| := by
  refine ⟨?_, driftSeq_geo d g x0 n, ?_⟩
  · simp only [driftSeq, update]
    ring
  · rw [driftSeq_geo d g x0 n, abs_mul, abs_pow]
    have hg : |1 - g| ≤ 1 := by
      rw [abs_le]
      constructor <;> linarith
    have hpow : |1 - g| ^ n ≤ 1 := pow_le_one₀ (abs_nonneg _) hg
    exact mul_le_of_le_one_left (abs_nonneg _) hpow

theorem c8_witness :
    (1 : ℚ) - driftSeq 1 (1 / 2) 0 (1 + 1) = (1 - 1 / 2) * (1 - driftSeq 1 (1 / 2) 0 1) ∧
    (1 : ℚ) - driftSeq 1 (1 / 2) 0 1 = (1 - 1 / 2) ^ 1 * (1 - 0) ∧
    |(1 : ℚ) - driftSeq 1 (1 / 2) 0 1| ≤ |(1 : ℚ) - 0| :=
  c8_drift_convergence 1 (1 / 2) 0 1 (by norm_num) (by norm_num)

/-- C9: construction with rate ≤ 0 fails immediately with no instance
state; construction with rate > 0 succeeds with the supplied loop gain,
and with loop gain 0.0001 when not supplied. -/
theorem c9_construction (rate g : ℚ) (drop : Bool) :
    (rate ≤ 0 → make rate drop g = none) ∧
    (0 < rate → make rate drop g = some (initState rate drop g) ∧
      (initState rate drop g).loop_gain = g) ∧
    (0 < rate → makeDefault rate drop = some (initState rate drop (1 / 10000)) ∧
      (initState rate drop (1 / 10000)).loop_gain = 1 / 10000) := by
  refine ⟨fun h => ?_, fun h => ⟨?_, rfl⟩, fun h => ⟨?_, rfl⟩⟩
  · unfold make
    rw [if_pos h]
  · unfold make
    rw [if_neg (not_le.mpr h)]
  · unfold makeDefault make defaultLoopGain
    rw [if_neg (not_le.mpr h)]

theorem c9_witness :
    make (-1) false (1 / 2) = none ∧
    makeDefault 2 true = some (initState 2 true (1 / 10000)) :=
  ⟨(c9_construction (-1) (1 / 2) false).1 (by norm_num),
    ((c9_construction 2 (1 / 2) true).2.2 (by norm_num)).1⟩

lemma stepP_meta {α β : Type} (st : State) {i : Input α} {j : Input β}
    (h : sameMeta i j) : stepP st i = stepP st j := by
  cases i with
  | block p b0 n =>
    cases j with
    | block q b0' n' =>
      obtain ⟨h1, h2⟩ := h
      subst h1
      subst h2
      rfl
    | marker s t => exact h.elim
    | request e => exact h.elim
  | marker s t =>
    cases j with
    | block q b0' n' => exact h.elim
    | marker s' t' =>
      obtain ⟨h1, h2⟩ := h
      subst h1
      subst h2
      rfl
    | request e => exact h.elim
  | request e =>
    cases j with
    | block q b0' n' => exact h.elim
    | marker s' t' => exact h.elim
    | request e' =>
      subst h
      rfl

lemma runP_meta {α β : Type} {is : List (Input α)} {js : List (Input β)}
    (h : List.Forall₂ sameMeta is js) :
    ∀ st : State, runP st is = runP st js := by
  induction h with
  | nil => exact fun st => rfl
  | cons hij htl ih =>
    intro st
    simp only [runP]
    rw [stepP_meta st hij, ih]

/-- C10: the interface is instantiated for exactly the five payload
element types of the header typedefs, and the emitted event stream of a
run is identical across payload element types whenever the timing
metadata (blocks, markers, requests) is the same. -/
theorem c10_payload_independence :
    (payloadTypes.length = 5 ∧ payloadTypes.Nodup ∧
      ∀ τ : PayloadType, τ ∈ payloadTypes) ∧
    ∀ (α β : Type) (st : State) (is : List (Input α)) (js : List (Input β)),
      List.Forall₂ sameMeta is js → runP st is = runP st js := by
  refine ⟨⟨rfl, by decide, by decide⟩, fun α β st is js h => runP_meta h st⟩

lemma processBlock_pending (st : State) (b0 n : ℕ) :
    (processBlock st b0 n).2.pending =
      st.pending.filter (fun e => !(matured st b0 n e)) := rfl

lemma processBlock_events (st : State) (b0 n : ℕ) :
    (processBlock st b0 n).1 =
      ((st.pending.filter (matured st b0 n)).filter
        (fun e => !(st.drop_if_late && isLate st b0 e))).map (emitEvent st b0) := rfl

lemma mem_events_iff {st : State} {b0 n : ℕ} {ev : EmittedEvent} :
    ev ∈ (processBlock st b0 n).1 ↔
      ∃ e, e ∈ st.pending ∧ matured st b0 n e = true ∧
        (st.drop_if_late && isLate st b0 e) = false ∧ ev = emitEvent st b0 e := by
  rw [processBlock_events]
  simp only [List.mem_map, List.mem_filter, Bool.not_eq_true']
  constructor
  · rintro ⟨e, ⟨⟨hmem, hmat⟩, hq⟩, rfl⟩
    exact ⟨e, hmem, hmat, hq, rfl⟩
  · rintro ⟨e, hmem, hmat, hq, rfl⟩
    exact ⟨e, ⟨⟨hmem, hmat⟩, hq⟩, rfl⟩

lemma emitEvent_id (st : State) (b0 : ℕ) (e : Entry) :
    (emitEvent st b0 e).id = e.id := rfl

lemma emitEvent_key (st : State) (b0 : ℕ) (e : Entry) :
    sample_to_time st.anchor st.rate st.drift
        ((emitEvent st b0 e).trigger_sample : ℚ) -
      (emitEvent st b0 e).late_delta = e.key := by
  simp only [emitEvent]
  ring

lemma trigger_sample_cast (st : State) (b0 : ℕ) (e : Entry) :
    (((max (resolveSample st e.key) (b0 : ℤ)).toNat : ℤ)) =
      max (resolveSample st e.key) (b0 : ℤ) :=
  Int.toNat_of_nonneg (le_trans (Int.ofNat_nonneg b0) (le_max_right _ _))

/-- C3: with `drop_if_late` set, a pending request whose resolved target
sample lies strictly before the block's first sample is removed from the
queue by the block pass and no event carrying its identity is emitted. -/
theorem c3_drop_late (st : State) (b0 n : ℕ) (e : Entry)
    (hdrop : st.drop_if_late = true) (hn : 1 ≤ n)
    (hnodup : (st.pending.map Entry.id).Nodup)
    (he : e ∈ st.pending) (hlate : resolveSample st e.key < (b0 : ℤ)) :
    e ∉ (processBlock st b0 n).2.pending ∧
    ∀ ev ∈ (processBlock st b0 n).1, ev.id ≠ e.id := by
  have hmat : matured st b0 n e = true := by
    simp only [matured, blockUpper, decide_eq_true_eq]
    omega
  constructor
  · intro hmemrem
    rw [processBlock_pending] at hmemrem
    have hcond := (List.mem_filter.mp hmemrem).2
    rw [Bool.not_eq_true'] at hcond
    rw [hmat] at hcond
    simp at hcond
  · intro ev hev hid
    obtain ⟨e', hmem', hmat', hq', rfl⟩ := mem_events_iff.mp hev
    rw [hdrop, Bool.true_and] at hq'
    have hee : e' = e :=
      List.inj_on_of_nodup_map hnodup hmem' he hid
    rw [hee] at hq'
    simp only [isLate, decide_eq_false_iff_not] at hq'
    exact hq' hlate

theorem c3_witness :
    wE0 ∉ (processBlock wStDrop 5 3).2.pending ∧
    ∀ ev ∈ (processBlock wStDrop 5 3).1, ev.id ≠ wE0.id :=
  c3_drop_late wStDrop 5 3 wE0 rfl (by decide) (by decide)
    (List.mem_cons_self wE0 [wE1])
    (by norm_num [resolveSample, time_to_sample, wStDrop, wE0])

/-- C4: every emitted event's `late_delta` is the actual time at the
trigger sample minus the requested true time and is never negative; with
`drop_if_late` unset, a request maturing strictly before the block is
still emitted, carrying a strictly positive `late_delta`. -/
theorem c4_late_delta (st : State) (b0 n : ℕ)
    (hpos : 0 < st.rate * st.drift) :
    (∀ ev ∈ (processBlock st b0 n).1, ∃ e, e ∈ st.pending ∧
      ev.id = e.id ∧
      ev.late_delta =
        sample_to_time st.anchor st.rate st.drift (ev.trigger_sample : ℚ) - e.key ∧
      0 ≤ ev.late_delta) ∧
    (st.drop_if_late = false → 1 ≤ n → ∀ e ∈ st.pending,
      resolveSample st e.key < (b0 : ℤ) →
      ∃ ev ∈ (processBlock st b0 n).1, ev.id = e.id ∧ 0 < ev.late_delta) := by
  have hne : st.rate * st.drift ≠ 0 := ne_of_gt hpos
  constructor
  · intro ev hev
    obtain ⟨e, hmem, hmat, hq, rfl⟩ := mem_events_iff.mp hev
    refine ⟨e, hmem, rfl, rfl, ?_⟩
    have hts : (((emitEvent st b0 e).trigger_sample : ℕ) : ℚ) =
        ((max (resolveSample st e.key) (b0 : ℤ) : ℤ) : ℚ) := by
      have h1 := trigger_sample_cast st b0 e
      exact_mod_cast congrArg (fun z : ℤ => (z : ℚ)) h1
    have hle : time_to_sample st.anchor st.rate st.drift e.key ≤
        (((emitEvent st b0 e).trigger_sample : ℕ) : ℚ) := by
      rw [hts]
      refine le_trans (Int.le_ceil _) ?_
      exact_mod_cast le_max_left (resolveSample st e.key) (b0 : ℤ)
    have hkey := sample_to_time_mono st.anchor st.rate st.drift hpos hle
    rw [sample_to_time_time_to_sample st.anchor st.rate st.drift e.key hne] at hkey
    have hld : (emitEvent st b0 e).late_delta =
        sample_to_time st.anchor st.rate st.drift
          (((emitEvent st b0 e).trigger_sample : ℕ) : ℚ) - e.key := rfl
    rw [hld]
    linarith
  · intro hdrop hn e hmem hlate
    have hmat : matured st b0 n e = true := by
      simp only [matured, blockUpper, decide_eq_true_eq]
      omega
    have hq : (st.drop_if_late && isLate st b0 e) = false := by
      rw [hdrop, Bool.false_and]
    refine ⟨emitEvent st b0 e, mem_events_iff.mpr ⟨e, hmem, hmat, hq, rfl⟩, rfl, ?_⟩
    have hmax : max (resolveSample st e.key) (b0 : ℤ) = (b0 : ℤ) :=
      max_eq_right (le_of_lt hlate)
    have hts : (((emitEvent st b0 e).trigger_sample : ℕ) : ℚ) = ((b0 : ℕ) : ℚ) := by
      show (((max (resolveSample st e.key) (b0 : ℤ)).toNat : ℕ) : ℚ) = ((b0 : ℕ) : ℚ)
      rw [hmax]
      simp
    have hlt : time_to_sample st.anchor st.rate st.drift e.key < ((b0 : ℕ) : ℚ) := by
      refine lt_of_le_of_lt (Int.le_ceil _) ?_
      exact_mod_cast hlate
    have hkey := sample_to_time_strictMono st.anchor st.rate st.drift hpos hlt
    rw [sample_to_time_time_to_sample st.anchor st.rate st.drift e.key hne] at hkey
    have hld : (emitEvent st b0 e).late_delta =
        sample_to_time st.anchor st.rate st.drift
          (((emitEvent st b0 e).trigger_sample : ℕ) : ℚ) - e.key := rfl
    rw [hld, hts]
    linarith

theorem c4_witness :
    ∃ ev ∈ (processBlock wSt 5 3).1, ev.id = wE0.id ∧ 0 < ev.late_delta :=
  (c4_late_delta wSt 5 3 (by norm_num [wSt])).2 rfl (by decide) wE0
    (List.mem_cons_self wE0 [wE1])
    (by norm_num [resolveSample, time_to_sample, wSt, wE0])

/-- C5: within a single block pass over a target-time-ordered queue, the
emitted events are in ascending requested-target-time order, and every
pending request resolving beyond the block's upper bound remains in the
queue. -/
theorem c5_ordering (st : State) (b0 n : ℕ)
    (hsorted : st.pending.Pairwise (fun e1 e2 => e1.key ≤ e2.key)) :
    ((processBlock st b0 n).1.Pairwise (fun ev1 ev2 =>
      sample_to_time st.anchor st.rate st.drift (ev1.trigger_sample : ℚ) -
          ev1.late_delta ≤
        sample_to_time st.anchor st.rate st.drift (ev2.trigger_sample : ℚ) -
          ev2.late_delta)) ∧
    ∀ e ∈ st.pending, blockUpper b0 n < resolveSample st e.key →
      e ∈ (processBlock st b0 n).2.pending := by
  constructor
  · rw [processBlock_events, List.pairwise_map]
    have hsub : List.Sublist
        ((st.pending.filter (matured st b0 n)).filter
          (fun e => !(st.drop_if_late && isLate st b0 e))) st.pending :=
      (List.filter_sublist _).trans (List.filter_sublist _)
    refine (List.Pairwise.sublist hsub hsorted).imp ?_
    intro a b h
    rw [emitEvent_key, emitEvent_key]
    exact h
  · intro e hmem hbeyond
    rw [processBlock_pending]
    refine List.mem_filter.mpr ⟨hmem, ?_⟩
    simp only [matured, Bool.not_eq_true', decide_eq_false_iff_not, not_le]
    exact hbeyond

theorem c5_witness :
    ((processBlock wSt 5 3).1.Pairwise (fun ev1 ev2 =>
      sample_to_time wSt.anchor wSt.rate wSt.drift (ev1.trigger_sample : ℚ) -
          ev1.late_delta ≤
        sample_to_time wSt.anchor wSt.rate wSt.drift (ev2.trigger_sample : ℚ) -
          ev2.late_delta)) ∧
    ∀ e ∈ wSt.pending, blockUpper 5 3 < resolveSample wSt e.key →
      e ∈ (processBlock wSt 5 3).2.pending :=
  c5_ordering wSt 5 3 (by norm_num [wSt, wE0, wE1, List.pairwise_cons])

lemma runTerm_subset (bs : List (ℕ × ℕ)) :
    ∀ (st : State), ∀ i ∈ runTerm st bs, i ∈ st.pending.map Entry.id := by
  induction bs with
  | nil =>
    intro st i hi
    exact absurd hi (List.not_mem_nil i)
  | cons b bs ih =>
    intro st i hi
    rcases List.mem_append.mp hi with h | h
    · exact ((List.filter_sublist _).map Entry.id).subset h
    · have h2 := ih (processBlock st b.1 b.2).2 i h
      rw [processBlock_pending] at h2
      exact ((List.filter_sublist _).map Entry.id).subset h2

lemma events_ids_sublist (st : State) (b0 n : ℕ) :
    List.Sublist ((processBlock st b0 n).1.map EmittedEvent.id)
      ((st.pending.filter (matured st b0 n)).map Entry.id) := by
  rw [processBlock_events, List.map_map]
  have hcomp : (EmittedEvent.id ∘ emitEvent st b0) = Entry.id := funext fun e => rfl
  rw [hcomp]
  exact (List.filter_sublist _).map Entry.id

lemma run_ids_sublist_runTerm (bs : List (ℕ × ℕ)) :
    ∀ st : State, List.Sublist ((run st bs).map EmittedEvent.id) (runTerm st bs) := by
  induction bs with
  | nil => exact fun st => List.Sublist.refl []
  | cons b bs ih =>
    intro st
    rw [run, runTerm, List.map_append]
    exact (events_ids_sublist st b.1 b.2).append (ih (processBlock st b.1 b.2).2)

lemma runTerm_nodup (bs : List (ℕ × ℕ)) :
    ∀ st : State, (st.pending.map Entry.id).Nodup → (runTerm st bs).Nodup := by
  induction bs with
  | nil => exact fun st _ => List.nodup_nil
  | cons b bs ih =>
    intro st h
    rw [runTerm]
    rw [List.nodup_append]
    refine ⟨((List.filter_sublist _).map Entry.id).nodup h, ?_, ?_⟩
    · refine ih (processBlock st b.1 b.2).2 ?_
      rw [processBlock_pending]
      exact ((List.filter_sublist _).map Entry.id).nodup h
    · intro i hi hi2
      have h2 := runTerm_subset bs (processBlock st b.1 b.2).2 i hi2
      rw [processBlock_pending] at h2
      obtain ⟨e, hemem, heid⟩ := List.mem_map.mp hi
      obtain ⟨e', hemem', heid'⟩ := List.mem_map.mp h2
      have he1 := List.mem_filter.mp hemem
      have he2 := List.mem_filter.mp hemem'
      have hee : e = e' := List.inj_on_of_nodup_map h he1.1 he2.1
        (heid.trans heid'.symm)
      have hmatT := he1.2
      have hmatF := he2.2
      rw [Bool.not_eq_true'] at hmatF
      rw [← hee, hmatT] at hmatF
      simp at hmatF

/-- C6: across any sequence of block-processing invocations starting
from a queue with distinct request identities, the identities reaching a
terminal state (emitted or dropped) are pairwise distinct, and the
emitted identities are a sub-sequence of them — so no request is emitted
twice, emitted after being dropped, or re-evaluated after a terminal
state. -/
theorem c6_terminal_once (st : State) (bs : List (ℕ × ℕ))
    (h : (st.pending.map Entry.id).Nodup) :
    (runTerm st bs).Nodup ∧
    List.Sublist ((run st bs).map EmittedEvent.id) (runTerm st bs) ∧
    ((run st bs).map EmittedEvent.id).Nodup ∧
    ∀ i ∈ runTerm st bs, i ∈ st.pending.map Entry.id := by
  have hterm := runTerm_nodup bs st h
  have hsub := run_ids_sublist_runTerm bs st
  exact ⟨hterm, hsub, hsub.nodup hterm, runTerm_subset bs st⟩

theorem c6_witness :
    (runTerm wSt [(0, 4), (4, 4)]).Nodup ∧
    List.Sublist ((run wSt [(0, 4), (4, 4)]).map EmittedEvent.id)
      (runTerm wSt [(0, 4), (4, 4)]) ∧
    ((run wSt [(0, 4), (4, 4)]).map EmittedEvent.id).Nodup ∧
    ∀ i ∈ runTerm wSt [(0, 4), (4, 4)], i ∈ wSt.pending.map Entry.id :=
  c6_terminal_once wSt [(0, 4), (4, 4)] (by decide)

theorem c10_witness :
    runP (initState 1 false (1 / 10000)) [Input.block [true] 0 4] =
      runP (initState 1 false (1 / 10000)) [Input.block [(3 : ℕ), 4, 5] 0 4] :=
  c10_payload_independence.2 Bool ℕ (initState 1 false (1 / 10000))
    [Input.block [true] 0 4] [Input.block [(3 : ℕ), 4, 5] 0 4]
    (List.Forall₂.cons ⟨rfl, rfl⟩ List.Forall₂.nil)

end TimingUtils
